import Mathlib

/-!
Shallow embedding of the dgraph-load-test load-test harness (main.go) and
proofs of the specification claims about it.

The embedding covers:
* the ValidationEngine (`validate`, main.go lines 395-490): per-node pass that
  reconciles the aggregate count (`highWaterMark`) against a full enumeration;
* the Allocator / WriterPool (`addEvent` lines 200-276, `runEventSimulator`
  lines 166-189): concurrent workers reserving values under a mutex, modelled
  as an interleaving of atomic steps driven by an explicit schedule;
* the ValidationScheduler (`runValidationScheduler` lines 133-164): the
  catch-up loop over observed counter values.

Observed event values are `Int` because the Go code converts the wire `uint64`
with `int(event.Value)`, which can produce negative numbers; the negative
branch of `validate` exists for exactly that case.  The high-water mark is a
`Nat` (it is the node's self-reported aggregate count).
-/

deriving instance DecidableEq for Except

/-- Per-pass validation state of `validate` (main.go lines 408-416): the seen
membership set over `[0, highWaterMark)` (the Go `map[int]bool`, represented
as the list of values marked true — the code only ever marks values it has
not seen before), plus the `countSeen`, `outOfRange` and `max` accumulators. -/
structure VState where
  seen : List Nat
  countSeen : Nat
  outOfRange : Nat
  maxV : Nat
deriving DecidableEq

/-- Initial validation state: empty seen map, all counters zero
(main.go lines 408-416). -/
def initState : VState := ⟨[], 0, 0, 0⟩

/-- One observed event value processed by the enumeration loop of `validate`
(main.go lines 430-459).  `Except.error d` is the duplicate abort
(`os.Exit(1)` at line 450); otherwise the updated state is returned.
Branches in source order: negative value (out-of-range, not counted as seen);
value `>= highWaterMark` in a final pass (out-of-range AND counted as seen);
value `>= highWaterMark` in a non-final pass (silently skipped); duplicate
(abort); fresh in-range value (mark seen, count, track max). -/
def processEvent (hwm : Nat) (final : Bool) (s : VState) (v : Int) :
    Except Nat VState :=
  if v < 0 then
    .ok { s with outOfRange := s.outOfRange + 1 }
  else if hwm ≤ v.toNat then
    if final then
      .ok { s with outOfRange := s.outOfRange + 1, countSeen := s.countSeen + 1 }
    else
      .ok s
  else if v.toNat ∈ s.seen then
    .error v.toNat
  else
    .ok { s with seen := v.toNat :: s.seen, countSeen := s.countSeen + 1,
                 maxV := if s.maxV < v.toNat then v.toNat else s.maxV }

/-- The enumeration loop of `validate` over the concatenated pages, in order
(main.go lines 418-460).  Aborts at the first duplicate. -/
def processEvents (hwm : Nat) (final : Bool) (s : VState) :
    List Int → Except Nat VState
  | [] => .ok s
  | v :: vs => (processEvent hwm final s v).bind fun s' => processEvents hwm final s' vs

/-- The `missed` counter of `validate` (main.go lines 462-472): the number of
indices in `[0, highWaterMark)` not marked seen. -/
def missedCount (hwm : Nat) (s : VState) : Nat :=
  ((List.range hwm).filter (fun i => decide (i ∉ s.seen))).length

/-- Outcome of one validation pass over one node (main.go lines 474-488):
either the `countSeen != highWaterMark` mismatch diagnostic with the verdict
withheld (line 474-477), or a verdict (`passed = false` iff `outOfRange > 0`
or `missed > 0`, lines 479-482).  Fields in order: countSeen, outOfRange,
missed, max. -/
inductive VOutcome where
  | mismatch (countSeen outOfRange missed maxV : Nat)
  | verdict (passed : Bool) (countSeen outOfRange missed maxV : Nat)
deriving DecidableEq

/-- One full validation pass over one node's contents (main.go lines 395-490):
run the enumeration, count the missing values, then either report a mismatch
(verdict withheld) when `countSeen != highWaterMark`, or issue the verdict.
`Except.error d` is the duplicate abort of the whole process. -/
def validate (hwm : Nat) (final : Bool) (events : List Int) :
    Except Nat VOutcome :=
  match processEvents hwm final initState events with
  | .error d => .error d
  | .ok s =>
    if s.countSeen ≠ hwm then
      .ok (.mismatch s.countSeen s.outOfRange (missedCount hwm s) s.maxV)
    else if 0 < s.outOfRange ∨ 0 < missedCount hwm s then
      .ok (.verdict false s.countSeen s.outOfRange (missedCount hwm s) s.maxV)
    else
      .ok (.verdict true s.countSeen s.outOfRange (missedCount hwm s) s.maxV)

/-- Effect of one validation pass on the node's entry in the per-node
missing-count table (main.go lines 484-486): the entry is overwritten with
`missed` only on the verdict path; the mismatch path `continue`s at line 476
before reaching the update, and the duplicate abort kills the process. -/
def applyMissingUpdate (prev : Option Nat) (hwm : Nat) (final : Bool)
    (events : List Int) : Option Nat :=
  match validate hwm final events with
  | .ok (.verdict _ _ _ m _) => some m
  | _ => prev

/-- The allocator reserve operation (main.go lines 202-205): under the mutex,
read the shared counter and increment it.  Returns the reserved value and the
new counter. -/
def reserve (count : Nat) : Nat × Nat := (count, count + 1)

/-- Outcome of one backend write call as `addEvent` sees it (main.go lines
235-262): whether `MutateRaw` returned an error, and the parse of the raw
response — `none` when `json.Unmarshal` fails, otherwise the list of echoed
event values. -/
structure BackendResp where
  rpcErr : Bool
  parsed : Option (List Nat)
deriving DecidableEq

/-- Number of error-log lines `addEvent` appends for one call (main.go lines
236-272): one for an RPC error, one for an unmarshal failure, one when the
response does not echo exactly one record, and one (before the panic) when the
single echoed value mismatches the reserved value. -/
def addEventLogCount (v : Nat) (r : BackendResp) : Nat :=
  (if r.rpcErr then 1 else 0) +
  (if r.parsed = none then 1 else 0) +
  (if (r.parsed.getD []).length ≠ 1 then 1 else 0) +
  (if (r.parsed.getD []).length = 1 ∧ (r.parsed.getD []).getD 0 0 ≠ v
   then 1 else 0)

/-- Global state of the concurrent writer pool (main.go lines 26-38, 76-103):
the shared counter, each worker's active flag (`runEventSimulator` keeps
looping while the values it reserves stay below MAX_EVENTS, lines 179-188),
the reservation log as (worker, value) pairs in issue order, the values
submitted to the backend in order, the `insertTime` ledger keys, each
worker's error-log length, and whether the process has panicked on an
echoed-value mismatch (line 272). -/
structure Sim where
  counter : Nat
  active : List Bool
  reservedBy : List (Nat × Nat)
  writes : List Nat
  ledger : List Nat
  errCount : List Nat
  halted : Bool
deriving DecidableEq

/-- Initial pool state for W workers: counter 0, all workers active, empty
logs (main.go lines 27, 74-82). -/
def initSim (W : Nat) : Sim := ⟨0, List.replicate W true, [], [], [], List.replicate W 0, false⟩

/-- One interleaved step: worker `w` runs one tick of its loop, i.e. one
`addEvent` call with backend outcome `r` (main.go lines 179-188, 200-276).
The mutex makes the reserve atomic, so concurrency is modelled as an
arbitrary interleaving of these atomic steps.  A step of a stopped worker, or
any step after the process panicked, is a no-op.  Within a step, in source
order: reserve the value, record the ledger entry, issue the write, append
any error-log lines, and stop the worker when the reserved value reached
MAX_EVENTS (the check at line 184 runs after `addEvent` returns, so the value
is reserved, ledgered and submitted first). -/
def simStep (K : Nat) (s : Sim) (w : Nat) (r : BackendResp) : Sim :=
  if s.halted then s
  else if s.active.getD w false = false then s
  else
    let v := (reserve s.counter).1
    let evs := r.parsed.getD []
    { counter := (reserve s.counter).2
      active := if K ≤ v then s.active.set w false else s.active
      reservedBy := s.reservedBy ++ [(w, v)]
      writes := s.writes ++ [v]
      ledger := s.ledger ++ [v]
      errCount := s.errCount.set w (s.errCount.getD w 0 + addEventLogCount v r)
      halted := decide (evs.length = 1 ∧ evs.getD 0 0 ≠ v) }

/-- A whole run of the writer pool: fold `simStep` over a schedule, i.e. a
list of (worker, backend outcome) pairs giving the interleaving order. -/
def simRun (K : Nat) : List (Nat × BackendResp) → Sim → Sim
  | [], s => s
  | (w, r) :: tr, s => simRun K tr (simStep K s w r)

/-- The observable actions of one `addEvent` call, in the straight-line order
of the source (main.go lines 200-276): reserve the value (202-205), record
the `insertTime` ledger entry (231-233), issue the backend write (235), then
the error-log appends of whichever failure branches fire, and the panic on an
echoed-value mismatch (272). -/
inductive WriterAct where
  | reserveVal (v : Nat)
  | ledgerRecord (v : Nat)
  | backendWrite (v : Nat)
  | logAppend
  | processAbort
deriving DecidableEq

/-- The action trace of one `addEvent` call with reserved value `v` and
backend outcome `r`, in source order. -/
def addEventActions (v : Nat) (r : BackendResp) : List WriterAct :=
  [WriterAct.reserveVal v, WriterAct.ledgerRecord v, WriterAct.backendWrite v] ++
  (if r.rpcErr then [WriterAct.logAppend] else []) ++
  (if r.parsed = none then [WriterAct.logAppend] else []) ++
  (if (r.parsed.getD []).length ≠ 1 then [WriterAct.logAppend]
   else if (r.parsed.getD []).getD 0 0 ≠ v then
     [WriterAct.logAppend, WriterAct.processAbort]
   else [])

/-- The validation scheduler's decision loop (main.go lines 139-163), with
the timing abstracted away: each element of the list is one observation of
`getCount()` (the inner catch-up loop re-reads the count each iteration, and
a `break` merely waits for the next tick before observing again, so the flat
observation stream captures both).  Per observation `c`: if `c` reached the
ceiling `K` (MAX_EVENTS) the scheduler returns (lines 150-152); if `c` is
below the next threshold nothing happens (lines 154-156); otherwise one
non-final validation pass runs and the threshold advances by the interval `I`
(lines 158-160).  Returns the thresholds at which passes ran, in order.  The
initial threshold is `I` (line 139). -/
def schedRun (I K : Nat) : Nat → List Nat → List Nat
  | _, [] => []
  | nA, c :: rest =>
    if K ≤ c then []
    else if c < nA then schedRun I K nA rest
    else nA :: schedRun I K (nA + I) rest

/-- The arithmetic sequence nA, nA+I, nA+2I, ... of length n: the shape of
any sequence of consecutive validation thresholds. -/
def thresholdSeq (nA I : Nat) : Nat → List Nat
  | 0 => []
  | n + 1 => nA :: thresholdSeq (nA + I) I n

/-- Invariant of the enumeration state: the seen list has no duplicates, only
holds in-range values, and `countSeen` is bounded between the number of seen
values and that number plus the out-of-range count (every `countSeen++` in
main.go lines 442 and 454 is paired with either an `outOfRange++` or a fresh
seen mark). -/
def VInv (hwm : Nat) (s : VState) : Prop :=
  s.seen.Nodup ∧ (∀ x ∈ s.seen, x < hwm) ∧
  s.seen.length ≤ s.countSeen ∧ s.countSeen ≤ s.seen.length + s.outOfRange

/-- Number of stopped workers: the `false` entries of the active list. -/
def falseCount : List Bool → Nat
  | [] => 0
  | b :: t => (if b then 0 else 1) + falseCount t

/-- Invariant of the writer-pool state: the worker lists keep their length,
and while the process has not panicked the number of stopped workers equals
the amount by which the counter has overshot the ceiling (each overshooting
reserve stops exactly one worker), with the counter never exceeding
ceiling + worker count. -/
def SimInv (K W : Nat) (s : Sim) : Prop :=
  s.active.length = W ∧ s.errCount.length = W ∧
  (s.halted = false → falseCount s.active = s.counter - K ∧ s.counter ≤ K + W)

/-! ### Helper lemmas about the validation pass -/

/-- A value at or above the high-water mark is silently skipped by a
non-final pass (main.go line 444-445). -/
lemma processEvent_nonfinal_high (hwm : Nat) (s : VState) (v : Int)
    (hv : (hwm : Int) ≤ v) : processEvent hwm false s v = .ok s := by
  have h0 : ¬ v < 0 := by omega
  have hn : hwm ≤ v.toNat := by omega
  simp [processEvent, h0, hn]

/-- A value at or above the high-water mark is counted both as out-of-range
and as seen by a final pass (main.go lines 439-443). -/
lemma processEvent_final_high (hwm : Nat) (s : VState) (v : Int)
    (hv : (hwm : Int) ≤ v) :
    processEvent hwm true s v =
      .ok { s with outOfRange := s.outOfRange + 1, countSeen := s.countSeen + 1 } := by
  have h0 : ¬ v < 0 := by omega
  have hn : hwm ≤ v.toNat := by omega
  simp [processEvent, h0, hn]

/-- The duplicate abort only fires on values inside `[0, highWaterMark)`
(main.go lines 439-451: larger values `continue` before the check). -/
lemma processEvent_error_lt (hwm : Nat) (final : Bool) (s : VState) (v : Int)
    (d : Nat) (h : processEvent hwm final s v = .error d) : d < hwm := by
  unfold processEvent at h
  split_ifs at h with h1 h2 h3 h4 h5 <;> injection h with h <;> omega

/-- Once the enumeration aborts on a duplicate, anything that would have
followed in the stream is never processed: the outcome on `xs ++ ys` is the
same abort (main.go line 450, `os.Exit(1)`). -/
lemma processEvents_append_error (hwm : Nat) (final : Bool) (s : VState)
    (xs ys : List Int) (d : Nat) (h : processEvents hwm final s xs = .error d) :
    processEvents hwm final s (xs ++ ys) = .error d := by
  induction xs generalizing s with
  | nil => simp [processEvents] at h
  | cons x xs ih =>
    rw [List.cons_append]
    unfold processEvents at h ⊢
    cases hp : processEvent hwm final s x with
    | error e => rw [hp] at h; simp only [Except.bind] at h ⊢; exact h
    | ok s' =>
      rw [hp] at h
      simp only [Except.bind] at h ⊢
      exact ih s' h

/-- Removing the values at or above the high-water mark from the stream does
not change the outcome of a non-final pass. -/
lemma processEvents_drop_high (hwm : Nat) (s : VState) (events : List Int) :
    processEvents hwm false s (events.filter (fun w => decide (w < (hwm : Int)))) =
      processEvents hwm false s events := by
  induction events generalizing s with
  | nil => rfl
  | cons w evs ih =>
    by_cases hw : w < (hwm : Int)
    · rw [List.filter_cons_of_pos (by simp [hw])]
      unfold processEvents
      cases hp : processEvent hwm false s w with
      | error e => simp only [Except.bind]
      | ok s' =>
        simp only [Except.bind]
        exact ih s'
    · rw [List.filter_cons_of_neg (by simp [hw])]
      conv_rhs => unfold processEvents
      rw [processEvent_nonfinal_high hwm s w (by omega)]
      simp only [Except.bind]
      exact ih s

lemma processEvent_inv (hwm : Nat) (final : Bool) (s s' : VState) (v : Int)
    (hI : VInv hwm s) (h : processEvent hwm final s v = .ok s') :
    VInv hwm s' := by
  obtain ⟨hnd, hlt, hle, hub⟩ := hI
  unfold processEvent at h
  split_ifs at h with h1 h2 h3 h4 h5 <;> injection h with h <;> subst h
  · exact ⟨hnd, hlt, by simp; omega, by simp; omega⟩
  · exact ⟨hnd, hlt, by simp; omega, by simp; omega⟩
  · exact ⟨hnd, hlt, hle, hub⟩
  · refine ⟨List.nodup_cons.mpr ⟨h4, hnd⟩, ?_, by simp; omega, by simp; omega⟩
    intro x hx
    rcases List.mem_cons.mp hx with rfl | hx
    · omega
    · exact hlt x hx
  · refine ⟨List.nodup_cons.mpr ⟨h4, hnd⟩, ?_, by simp; omega, by simp; omega⟩
    intro x hx
    rcases List.mem_cons.mp hx with rfl | hx
    · omega
    · exact hlt x hx

lemma processEvents_inv (hwm : Nat) (final : Bool) (s s' : VState)
    (events : List Int) (hI : VInv hwm s)
    (h : processEvents hwm final s events = .ok s') : VInv hwm s' := by
  induction events generalizing s with
  | nil => simp only [processEvents, Except.ok.injEq] at h; exact h ▸ hI
  | cons v evs ih =>
    unfold processEvents at h
    cases hp : processEvent hwm final s v with
    | error e => rw [hp] at h; exact absurd h (by simp [Except.bind])
    | ok s1 =>
      rw [hp] at h
      simp only [Except.bind] at h
      exact ih s1 (processEvent_inv hwm final s s1 v hI hp) h

lemma missedCount_zero_subset (hwm : Nat) (s : VState)
    (h : missedCount hwm s = 0) : ∀ i < hwm, i ∈ s.seen := by
  intro i hi
  by_contra hmem
  have : i ∈ (List.range hwm).filter (fun i => decide (i ∉ s.seen)) := by
    simp [List.mem_filter, List.mem_range, hi, hmem]
  rw [List.eq_nil_of_length_eq_zero h] at this
  simp at this

/-- The value reported by any duplicate abort of the enumeration is below the
high-water mark. -/
lemma processEvents_error_lt (hwm : Nat) (final : Bool) (s : VState)
    (xs : List Int) (d : Nat) (h : processEvents hwm final s xs = .error d) :
    d < hwm := by
  induction xs generalizing s with
  | nil => simp [processEvents] at h
  | cons x xs ih =>
    unfold processEvents at h
    cases hp : processEvent hwm final s x with
    | error e =>
      rw [hp] at h
      simp only [Except.bind] at h
      injection h with h
      exact h ▸ processEvent_error_lt hwm final s x e hp
    | ok s1 =>
      rw [hp] at h
      simp only [Except.bind] at h
      exact ih s1 h

/-! ### Claims C3, C4, C5, C6, C10 — the ValidationEngine -/

/-- C3 counterexample: Scenario C (final pass, highWaterMark 5, observed
[0,2,3,4]) does NOT yield a failed verdict: countSeen is 4 ≠ 5, so the code
prints the mismatch diagnostic and `continue`s (main.go lines 474-477),
withholding the verdict even though missing = 1 > 0, and the per-node
missing-count table entry is not updated.  Likewise the Scenario D final pass
(observed [0,1,2,3,4,7]) ends with countSeen 6 ≠ 5 and its verdict is also
withheld rather than failed. -/
theorem C3_counterexample :
    validate 5 true [0, 2, 3, 4] = .ok (.mismatch 4 0 1 4) ∧
    applyMissingUpdate (some 7) 5 true [0, 2, 3, 4] = some 7 ∧
    validate 5 true [0, 1, 2, 3, 4, 7] = .ok (.mismatch 6 1 0 4) := by
  refine ⟨by decide, by decide, by decide⟩

/-- C3 (amended): a pass issues a verdict only when countSeen equals the
high-water mark; the verdict is then failed exactly when outOfRange > 0 or
missing > 0.  When countSeen differs from the high-water mark the verdict is
withheld with a mismatch diagnostic even if other flags (missing,
out-of-range) were raised. -/
theorem C3_verdict_amended (hwm : Nat) (final : Bool) (events : List Int)
    (s : VState) (h : processEvents hwm final initState events = .ok s) :
    (s.countSeen ≠ hwm →
      validate hwm final events =
        .ok (.mismatch s.countSeen s.outOfRange (missedCount hwm s) s.maxV)) ∧
    (s.countSeen = hwm → (0 < s.outOfRange ∨ 0 < missedCount hwm s) →
      validate hwm final events =
        .ok (.verdict false s.countSeen s.outOfRange (missedCount hwm s) s.maxV)) ∧
    (s.countSeen = hwm → s.outOfRange = 0 → missedCount hwm s = 0 →
      validate hwm final events =
        .ok (.verdict true s.countSeen s.outOfRange (missedCount hwm s) s.maxV)) := by
  refine ⟨fun hc => ?_, fun hc hf => ?_, fun hc ho hm => ?_⟩
  · simp [validate, h, hc]
  · simp [validate, h, hc, hf]
  · simp [validate, h, hc, ho, hm]

/-- C3 witness: the amended theorem applied to Scenario C. -/
theorem C3_verdict_amended_witness :
    validate 5 true [0, 2, 3, 4] = .ok (.mismatch 4 0 1 4) :=
  (C3_verdict_amended 5 true [0, 2, 3, 4] ⟨[4, 3, 2, 0], 4, 0, 4⟩ (by decide)).1
    (by decide)

/-- C4 counterexample: the claimed biconditional fails right-to-left.  In the
final pass with highWaterMark 5 over [0,1,2,3,7], the value 7 is counted both
as out-of-range and toward countSeen (main.go lines 439-443), so countSeen =
5 = highWaterMark while outOfRange = 1 and missing = 1. -/
theorem C4_counterexample :
    ¬ (∀ (hwm : Nat) (events : List Int) (p : Bool) (c o m x : Nat),
        validate hwm true events = .ok (.verdict p c o m x) →
        ((o = 0 ∧ m = 0) ↔ c = hwm)) := by
  intro hclaim
  have h := hclaim 5 [0, 1, 2, 3, 7] false 5 1 1 3 (by decide)
  exact absurd (h.mpr rfl).1 (by decide)

/-- C4 (amended): only the forward direction holds — if a final pass reports
outOfRange = 0 and missing = 0, then countSeen = highWaterMark.  The converse
fails whenever the number of out-of-range values counted in a final pass
equals the number of missing values. -/
theorem C4_forward_amended (hwm : Nat) (events : List Int) (s : VState)
    (h : processEvents hwm true initState events = .ok s)
    (ho : s.outOfRange = 0) (hm : missedCount hwm s = 0) :
    s.countSeen = hwm := by
  have hI : VInv hwm s :=
    processEvents_inv hwm true initState s events
      ⟨List.nodup_nil, by simp [initState], Nat.le_refl 0, Nat.le_refl 0⟩ h
  obtain ⟨hnd, hlt, hle, hub⟩ := hI
  have hsub : s.seen ⊆ List.range hwm := fun x hx =>
    List.mem_range.mpr (hlt x hx)
  have hlen1 : s.seen.length ≤ hwm := by
    have := (hnd.subperm hsub).length_le
    simpa using this
  have hsup : List.range hwm ⊆ s.seen := fun x hx =>
    missedCount_zero_subset hwm s hm x (List.mem_range.mp hx)
  have hlen2 : hwm ≤ s.seen.length := by
    have := ((List.nodup_range hwm).subperm hsup).length_le
    simpa using this
  omega

/-- C4 witness: the amended forward direction applied to Scenario A. -/
theorem C4_forward_amended_witness :
    VState.countSeen ⟨[4, 3, 2, 1, 0], 5, 0, 4⟩ = 5 :=
  C4_forward_amended 5 [0, 1, 2, 3, 4] ⟨[4, 3, 2, 1, 0], 5, 0, 4⟩ (by decide)
    (by decide) (by decide)

/-- C5: on the first already-seen value in [0, highWaterMark) the pass aborts
the whole process, the reported duplicate is below the high-water mark, and
nothing after the aborting value is ever processed — appending any further
stream contents leaves the outcome (and the reported duplicate) unchanged, so
two runs over identical node contents report the same duplicate. -/
theorem C5_duplicate_abort (hwm : Nat) (final : Bool) (xs ys : List Int)
    (d : Nat) (h : processEvents hwm final initState xs = .error d) :
    processEvents hwm final initState (xs ++ ys) = .error d ∧ d < hwm := by
  constructor
  · exact processEvents_append_error hwm final initState xs ys d h
  · exact processEvents_error_lt hwm final initState xs d h

/-- C5 witness: Scenario B — highWaterMark 5, observed [0,1,1]; the second 1
aborts with duplicate 1 and the trailing [3,4] is never processed. -/
theorem C5_duplicate_abort_witness :
    processEvents 5 true initState ([0, 1, 1] ++ [3, 4]) = .error 1 ∧ 1 < 5 :=
  C5_duplicate_abort 5 true [0, 1, 1] [3, 4] 1 (by decide)

/-- C6: a value at or above the high-water mark is counted as out-of-range
(and toward countSeen) in a final pass; in a non-final pass it is silently
skipped — the state (error counters, seen set) is unchanged — and removing
all such values from the stream leaves the whole non-final pass outcome,
verdict included, unchanged. -/
theorem C6_high_value_handling (hwm : Nat) (s : VState) (v : Int)
    (events : List Int) (hv : (hwm : Int) ≤ v) :
    processEvent hwm true s v =
      .ok { s with outOfRange := s.outOfRange + 1, countSeen := s.countSeen + 1 } ∧
    processEvent hwm false s v = .ok s ∧
    validate hwm false (events.filter (fun w => decide (w < (hwm : Int)))) =
      validate hwm false events := by
  refine ⟨processEvent_final_high hwm s v hv, processEvent_nonfinal_high hwm s v hv, ?_⟩
  unfold validate
  rw [processEvents_drop_high hwm initState events]

/-- C6 witness: highWaterMark 5, value 7, stream [0,7,1]. -/
theorem C6_high_value_handling_witness :
    processEvent 5 true initState 7 =
      .ok { initState with outOfRange := 1, countSeen := 1 } ∧
    processEvent 5 false initState 7 = .ok initState ∧
    validate 5 false ([0, 7, 1].filter (fun w => decide (w < (5 : Int)))) =
      validate 5 false [0, 7, 1] :=
  C6_high_value_handling 5 initState 7 [0, 7, 1] (by decide)

/-- C10: the per-node missing-count table entry is left unchanged by any pass
that ends with countSeen ≠ highWaterMark, and is overwritten with the pass's
missing count exactly when countSeen = highWaterMark. -/
theorem C10_missing_table_frame (prev : Option Nat) (hwm : Nat) (final : Bool)
    (events : List Int) (s : VState)
    (h : processEvents hwm final initState events = .ok s) :
    (s.countSeen ≠ hwm → applyMissingUpdate prev hwm final events = prev) ∧
    (s.countSeen = hwm →
      applyMissingUpdate prev hwm final events = some (missedCount hwm s)) := by
  constructor
  · intro hc
    simp [applyMissingUpdate, validate, h, hc]
  · intro hc
    by_cases hflag : 0 < s.outOfRange ∨ 0 < missedCount hwm s
    · simp [applyMissingUpdate, validate, h, hc, hflag]
    · simp [applyMissingUpdate, validate, h, hc, hflag]

/-- C10 witness: Scenario C leaves a previous entry of 7 untouched
(mismatch), while Scenario A overwrites it with 0 (verdict issued). -/
theorem C10_missing_table_frame_witness :
    applyMissingUpdate (some 7) 5 true [0, 2, 3, 4] = some 7 :=
  (C10_missing_table_frame (some 7) 5 true [0, 2, 3, 4] ⟨[4, 3, 2, 0], 4, 0, 4⟩
    (by decide)).1 (by decide)

/-! ### Helper lemmas about the writer pool -/

lemma getD_set_self {α : Type} (l : List α) (w : Nat) (x d : α)
    (h : w < l.length) : (l.set w x).getD w d = x := by
  induction l generalizing w with
  | nil => simp at h
  | cons b t ih =>
    cases w with
    | zero => simp
    | succ w => simpa using ih w (by simpa using h)

lemma getD_true_lt (l : List Bool) (w : Nat) (h : l.getD w false = true) :
    w < l.length := by
  induction l generalizing w with
  | nil => simp at h
  | cons b t ih =>
    cases w with
    | zero => simp
    | succ w => simpa using ih w (by simpa using h)

lemma falseCount_set_false (l : List Bool) (w : Nat)
    (h : l.getD w false = true) :
    falseCount (l.set w false) = falseCount l + 1 := by
  induction l generalizing w with
  | nil => simp at h
  | cons b t ih =>
    cases w with
    | zero =>
      simp only [List.getD_cons_zero] at h
      subst h
      simp [falseCount]
      omega
    | succ w =>
      simp only [List.getD_cons_succ] at h
      simp only [List.set_cons_succ, falseCount, ih w h]
      omega

lemma falseCount_le_length (l : List Bool) : falseCount l ≤ l.length := by
  induction l with
  | nil => simp [falseCount]
  | cons b t ih =>
    simp only [falseCount, List.length_cons]
    split <;> omega

lemma falseCount_lt_length (l : List Bool) (w : Nat)
    (h : l.getD w false = true) : falseCount l < l.length := by
  induction l generalizing w with
  | nil => simp at h
  | cons b t ih =>
    cases w with
    | zero =>
      simp only [List.getD_cons_zero] at h
      subst h
      have := falseCount_le_length t
      simp [falseCount]
      omega
    | succ w =>
      simp only [List.getD_cons_succ] at h
      have := ih w h
      simp only [falseCount, List.length_cons]
      split <;> omega

lemma falseCount_eq_length (l : List Bool) (h : ∀ b ∈ l, b = false) :
    falseCount l = l.length := by
  induction l with
  | nil => rfl
  | cons b t ih =>
    have hb : b = false := h b (List.mem_cons_self b t)
    subst hb
    simp only [falseCount, List.length_cons, if_neg Bool.false_ne_true]
    rw [ih fun c hc => h c (List.mem_cons_of_mem _ hc)]
    omega

lemma falseCount_replicate_true (W : Nat) :
    falseCount (List.replicate W true) = 0 := by
  induction W with
  | zero => rfl
  | succ W ih => simp [List.replicate_succ, falseCount, ih]

/-- The reservation log always lists exactly the values 0, 1, ..., counter-1
in issue order, and every reserved value is written (and ledgered) exactly
once, in the same order. -/
lemma simRun_logs (K : Nat) (tr : List (Nat × BackendResp)) (s : Sim)
    (h : s.reservedBy.map Prod.snd = List.range s.counter)
    (hw : s.writes = s.reservedBy.map Prod.snd)
    (hl : s.ledger = s.reservedBy.map Prod.snd) :
    (simRun K tr s).reservedBy.map Prod.snd = List.range (simRun K tr s).counter ∧
    (simRun K tr s).writes = (simRun K tr s).reservedBy.map Prod.snd ∧
    (simRun K tr s).ledger = (simRun K tr s).reservedBy.map Prod.snd := by
  induction tr generalizing s with
  | nil => exact ⟨h, hw, hl⟩
  | cons p tr ih =>
    obtain ⟨w, r⟩ := p
    simp only [simRun]
    apply ih
    · unfold simStep
      split
      · exact h
      · split
        · exact h
        · simp [reserve, h, List.range_succ]
    · unfold simStep
      split
      · exact hw
      · split
        · exact hw
        · simp [reserve, hw, h]
    · unfold simStep
      split
      · exact hl
      · split
        · exact hl
        · simp [reserve, hl, h]

/-- One step preserves the writer-pool invariant. -/
lemma simStep_inv (K W : Nat) (s : Sim) (w : Nat) (r : BackendResp)
    (hI : SimInv K W s) : SimInv K W (simStep K s w r) := by
  obtain ⟨hal, hel, hcnt⟩ := hI
  unfold simStep
  split
  · exact ⟨hal, hel, hcnt⟩
  · split
    · exact ⟨hal, hel, hcnt⟩
    · rename_i hhalt hact
      refine ⟨?_, by simpa using hel, ?_⟩
      · by_cases hK : K ≤ s.counter <;> simp [reserve, hK, hal]
      · intro _
        obtain ⟨hfc, hub⟩ := hcnt (by simpa using hhalt)
        have hactive : s.active.getD w false = true := by
          simpa using hact
        have h1 := falseCount_set_false s.active w hactive
        have h2 := falseCount_lt_length s.active w hactive
        rw [hal] at h2
        by_cases hK : K ≤ s.counter
        · simp only [reserve, if_pos hK]
          omega
        · simp only [reserve, if_neg hK]
          omega

/-- A whole run preserves the writer-pool invariant. -/
lemma simRun_inv (K W : Nat) (tr : List (Nat × BackendResp)) (s : Sim)
    (hI : SimInv K W s) : SimInv K W (simRun K tr s) := by
  induction tr generalizing s with
  | nil => exact hI
  | cons p tr ih =>
    obtain ⟨w, r⟩ := p
    exact ih (simStep K s w r) (simStep_inv K W s w r hI)

lemma initSim_inv (K W : Nat) : SimInv K W (initSim W) := by
  refine ⟨by simp [initSim], by simp [initSim], fun _ => ?_⟩
  simp [initSim, falseCount_replicate_true]

lemma addEventLogCount_pos (v : Nat) (r : BackendResp)
    (hfail : r.rpcErr = true ∨ r.parsed = none ∨ (r.parsed.getD []).length ≠ 1) :
    0 < addEventLogCount v r := by
  unfold addEventLogCount
  rcases hfail with h | h | h <;> simp [h] <;> split_ifs <;> omega

/-- In the non-halted, active-worker case one step performs exactly one
reserve, one ledger record, one write, the error-log appends, and the
ceiling/panic bookkeeping. -/
lemma simStep_active (K : Nat) (s : Sim) (w : Nat) (r : BackendResp)
    (hhalt : s.halted = false) (hact : s.active.getD w false = true) :
    simStep K s w r =
      { counter := s.counter + 1
        active := if K ≤ s.counter then s.active.set w false else s.active
        reservedBy := s.reservedBy ++ [(w, s.counter)]
        writes := s.writes ++ [s.counter]
        ledger := s.ledger ++ [s.counter]
        errCount := s.errCount.set w
          (s.errCount.getD w 0 + addEventLogCount s.counter r)
        halted := decide ((r.parsed.getD []).length = 1 ∧
          (r.parsed.getD []).getD 0 0 ≠ s.counter) } := by
  unfold simStep
  rw [if_neg (by rw [hhalt]; simp), if_neg (by rw [hact]; simp)]
  rfl

/-! ### Claims C1, C2, C7, C8 — the Allocator and WriterPool -/

/-- C1: over any interleaving of any number of concurrent workers, the
reserve operation (the locked read-and-increment in addEvent) issues exactly
the values 0, 1, 2, ... in order: the issued values are strictly increasing
in issue order and no value is ever issued twice (to any two callers). -/
theorem C1_reserve_unique_increasing (K W : Nat)
    (tr : List (Nat × BackendResp)) :
    (simRun K tr (initSim W)).reservedBy.map Prod.snd =
      List.range (simRun K tr (initSim W)).counter ∧
    List.Pairwise (· < ·) ((simRun K tr (initSim W)).reservedBy.map Prod.snd) ∧
    ((simRun K tr (initSim W)).reservedBy.map Prod.snd).Nodup := by
  have h := simRun_logs K tr (initSim W) (by simp [initSim]) (by simp [initSim])
    (by simp [initSim])
  refine ⟨h.1, ?_, ?_⟩
  · rw [h.1]; exact List.pairwise_lt_range _
  · rw [h.1]; exact List.nodup_range _

/-- C2 counterexample: with ceiling K = 1 and one worker, a completed,
unpanicked run reserves AND submits the value 1 ≥ K: `runEventSimulator`
checks the reserved value against MAX_EVENTS only after `addEvent` has
already submitted it (main.go line 184), so the union of reserved values is
{0, 1}, not {0} = {0,…,K-1}. -/
theorem C2_counterexample :
    (simRun 1 [(0, ⟨false, some [0]⟩), (0, ⟨false, some [1]⟩)]
        (initSim 1)).reservedBy.map Prod.snd = [0, 1] ∧
    (simRun 1 [(0, ⟨false, some [0]⟩), (0, ⟨false, some [1]⟩)]
        (initSim 1)).writes = [0, 1] ∧
    (∀ b ∈ (simRun 1 [(0, ⟨false, some [0]⟩), (0, ⟨false, some [1]⟩)]
        (initSim 1)).active, b = false) ∧
    (simRun 1 [(0, ⟨false, some [0]⟩), (0, ⟨false, some [1]⟩)]
        (initSim 1)).halted = false := by
  refine ⟨by decide, by decide, by decide, by decide⟩

/-- C2 (amended): each worker stops after the first value it reserves at or
above the ceiling K, but that value is still submitted; over any completed,
unaborted run with W ≥ 1 workers the union of reserved values — all of which
are submitted — is exactly {0,…,K+W-1} (for Scenario E: 5 workers, ceiling
100000, the union is {0,…,100004}), still with no duplicate or gap in the
reservation stream itself. -/
theorem C2_run_amended (K W : Nat) (tr : List (Nat × BackendResp))
    (hW : 0 < W)
    (hdone : ∀ b ∈ (simRun K tr (initSim W)).active, b = false)
    (hok : (simRun K tr (initSim W)).halted = false) :
    (simRun K tr (initSim W)).counter = K + W ∧
    (simRun K tr (initSim W)).reservedBy.map Prod.snd = List.range (K + W) ∧
    (simRun K tr (initSim W)).writes = List.range (K + W) := by
  have hlog := simRun_logs K tr (initSim W) (by simp [initSim])
    (by simp [initSim]) (by simp [initSim])
  obtain ⟨hal, hel, hcnt⟩ := simRun_inv K W tr (initSim W) (initSim_inv K W)
  obtain ⟨hfc, hub⟩ := hcnt hok
  have hfull : falseCount (simRun K tr (initSim W)).active = W := by
    rw [falseCount_eq_length _ hdone, hal]
  have hcounter : (simRun K tr (initSim W)).counter = K + W := by omega
  exact ⟨hcounter, by rw [hlog.1, hcounter],
    by rw [hlog.2.1, hlog.1, hcounter]⟩

/-- C2 witness: the amended theorem on the concrete one-worker, ceiling-1
run. -/
theorem C2_run_amended_witness :
    (simRun 1 [(0, ⟨false, some [0]⟩), (0, ⟨false, some [1]⟩)]
        (initSim 1)).counter = 1 + 1 ∧
    (simRun 1 [(0, ⟨false, some [0]⟩), (0, ⟨false, some [1]⟩)]
        (initSim 1)).reservedBy.map Prod.snd = List.range (1 + 1) ∧
    (simRun 1 [(0, ⟨false, some [0]⟩), (0, ⟨false, some [1]⟩)]
        (initSim 1)).writes = List.range (1 + 1) :=
  C2_run_amended 1 1 [(0, ⟨false, some [0]⟩), (0, ⟨false, some [1]⟩)]
    (by decide) (by decide) (by decide)

/-- C7: every reserved value is consumed by exactly one write attempt (the
write log always equals the reservation log, with no duplicates, so no value
is ever resubmitted), and when the attempt fails — RPC error, unparseable
response, or a response not echoing exactly one record — the worker appends
to its error log and proceeds: its next step still writes the next value, it
stays active while below the ceiling, and the process does not abort (given
that a well-formed single echo, when present, carries the reserved value —
otherwise the separate fatal-mismatch rule applies). -/
theorem C7_write_once_failures_logged (K W : Nat)
    (tr : List (Nat × BackendResp)) (s : Sim) (w : Nat) (r : BackendResp)
    (hs : s = simRun K tr (initSim W))
    (hhalt : s.halted = false)
    (hact : s.active.getD w false = true)
    (hfail : r.rpcErr = true ∨ r.parsed = none ∨ (r.parsed.getD []).length ≠ 1)
    (hecho : (r.parsed.getD []).length = 1 →
      (r.parsed.getD []).getD 0 0 = s.counter) :
    s.writes = s.reservedBy.map Prod.snd ∧
    s.writes.Nodup ∧
    s.errCount.getD w 0 < (simStep K s w r).errCount.getD w 0 ∧
    (simStep K s w r).writes = s.writes ++ [s.counter] ∧
    (s.counter < K → (simStep K s w r).active.getD w false = true) ∧
    (simStep K s w r).halted = false := by
  have hlog := simRun_logs K tr (initSim W) (by simp [initSim])
    (by simp [initSim]) (by simp [initSim])
  obtain ⟨hal, hel, _⟩ := simRun_inv K W tr (initSim W) (initSim_inv K W)
  rw [← hs] at hlog hal hel
  have hwlen : w < s.errCount.length := by
    rw [hel, ← hal]
    exact getD_true_lt s.active w hact
  rw [simStep_active K s w r hhalt hact]
  refine ⟨hlog.2.1, ?_, ?_, rfl, ?_, ?_⟩
  · rw [hlog.2.1, hlog.1]; exact List.nodup_range _
  · rw [getD_set_self s.errCount w _ 0 hwlen]
    have := addEventLogCount_pos s.counter r hfail
    omega
  · intro hlt
    rw [if_neg (by omega)]
    exact hact
  · simp only [decide_eq_false_iff_not]
    rintro ⟨h1, h2⟩
    exact h2 (hecho h1)

/-- C7 witness: a fresh one-worker pool, RPC error with unparseable
response. -/
theorem C7_write_once_failures_logged_witness :
    (initSim 1).writes = (initSim 1).reservedBy.map Prod.snd ∧
    (initSim 1).writes.Nodup ∧
    (initSim 1).errCount.getD 0 0 <
      (simStep 5 (initSim 1) 0 ⟨true, none⟩).errCount.getD 0 0 ∧
    (simStep 5 (initSim 1) 0 ⟨true, none⟩).writes =
      (initSim 1).writes ++ [(initSim 1).counter] ∧
    ((initSim 1).counter < 5 →
      (simStep 5 (initSim 1) 0 ⟨true, none⟩).active.getD 0 false = true) ∧
    (simStep 5 (initSim 1) 0 ⟨true, none⟩).halted = false :=
  C7_write_once_failures_logged 5 1 [] (initSim 1) 0 ⟨true, none⟩ rfl
    (by decide) (by decide) (Or.inl rfl) (by decide)

/-- C8: in every `addEvent` call the action trace starts with the reserve,
then the ledger record, then the backend write — the submission timestamp is
recorded strictly before the write is issued — and the ledger record is
present for every backend outcome, including all failing ones. -/
theorem C8_ledger_before_write (v : Nat) (r : BackendResp) :
    (∃ rest, addEventActions v r =
      WriterAct.reserveVal v :: WriterAct.ledgerRecord v ::
        WriterAct.backendWrite v :: rest) ∧
    WriterAct.ledgerRecord v ∈ addEventActions v r := by
  constructor
  · exact ⟨_, rfl⟩
  · simp [addEventActions]

/-! ### Helper lemmas about the validation scheduler -/

/-- Whatever the observed counter trajectory, the thresholds at which passes
run form a gap-free arithmetic progression from the initial threshold: the
catch-up loop advances by exactly one interval per pass. -/
lemma schedRun_thresholdSeq (I K nA : Nat) (obs : List Nat) :
    ∃ n, schedRun I K nA obs = thresholdSeq nA I n := by
  induction obs generalizing nA with
  | nil => exact ⟨0, rfl⟩
  | cons c rest ih =>
    unfold schedRun
    by_cases h1 : K ≤ c
    · exact ⟨0, by rw [if_pos h1]; rfl⟩
    · rw [if_neg h1]
      by_cases h2 : c < nA
      · rw [if_pos h2]; exact ih nA
      · rw [if_neg h2]
        obtain ⟨m, hm⟩ := ih (nA + I)
        exact ⟨m + 1, by rw [hm]; rfl⟩

lemma thresholdSeq_succ (nA I n : Nat) :
    thresholdSeq nA I (n + 1) = thresholdSeq nA I n ++ [nA + n * I] := by
  induction n generalizing nA with
  | zero => simp [thresholdSeq]
  | succ n ih =>
    show nA :: thresholdSeq (nA + I) I (n + 1) =
      (nA :: thresholdSeq (nA + I) I n) ++ [nA + (n + 1) * I]
    rw [ih (nA + I), List.cons_append]
    have : nA + I + n * I = nA + (n + 1) * I := by
      rw [Nat.add_mul]; omega
    rw [this]

lemma thresholdSeq_eq_map (nA I n : Nat) :
    thresholdSeq nA I n = (List.range n).map (fun j => nA + j * I) := by
  induction n with
  | zero => rfl
  | succ n ih =>
    rw [thresholdSeq_succ, ih, List.range_succ, List.map_append]
    rfl

/-- Processing stops at the first observation that reached the ceiling:
whatever observations would have followed are never considered. -/
lemma schedRun_stop (I K nA c : Nat) (pre post : List Nat) (hc : K ≤ c) :
    schedRun I K nA (pre ++ c :: post) = schedRun I K nA (pre ++ [c]) := by
  induction pre generalizing nA with
  | nil =>
    simp only [List.nil_append]
    unfold schedRun
    rw [if_pos hc, if_pos hc]
  | cons p pre ih =>
    simp only [List.cons_append]
    unfold schedRun
    by_cases h1 : K ≤ p
    · rw [if_pos h1, if_pos h1]
    · rw [if_neg h1, if_neg h1]
      by_cases h2 : p < nA
      · rw [if_pos h2, if_pos h2]; exact ih nA
      · rw [if_neg h2, if_neg h2]; rw [ih (nA + I)]

/-! ### Claim C9 — the ValidationScheduler -/

/-- C9 counterexample: with interval 2 and ceiling 10, a count trajectory
observed at 10 triggers no validation pass at all — the ceiling check at
main.go lines 150-152 runs before the threshold check, so the thresholds
2, 4, 6, 8 (all below the ceiling, all crossed by the count) are skipped —
whereas the same thresholds each get their pass when the count is observed
at 9. -/
theorem C9_counterexample :
    schedRun 2 10 2 [10, 10, 10, 10] = [] ∧
    schedRun 2 10 2 [9, 9, 9, 9] = [2, 4, 6, 8] := by
  refine ⟨by decide, by decide⟩

/-- C9 (amended): while an observed count is below the ceiling and has
reached the current threshold, the scheduler runs exactly one non-final pass
and advances the threshold by one interval (the catch-up loop then re-reads
the count); consequently the thresholds that get passes always form the
gap-free sequence interval, 2·interval, ..., n·interval for some n.  But the
scheduler stops at its first observation at or above the ceiling: any
thresholds still pending then — including thresholds below the ceiling that
the count has already crossed — are never validated. -/
theorem C9_scheduler_amended (I K n : Nat) (obs pre post rest : List Nat)
    (nA c c2 nA2 : Nat) (hc : K ≤ c) (hc2 : c2 < K) (hnA2 : nA2 ≤ c2) :
    (∃ m, schedRun I K I obs = thresholdSeq I I m) ∧
    thresholdSeq I I n = (List.range n).map (fun j => I + j * I) ∧
    schedRun I K nA2 (c2 :: rest) = nA2 :: schedRun I K (nA2 + I) rest ∧
    schedRun I K nA (pre ++ c :: post) = schedRun I K nA (pre ++ [c]) := by
  refine ⟨schedRun_thresholdSeq I K I obs, thresholdSeq_eq_map I I n, ?_,
    schedRun_stop I K nA c pre post hc⟩
  conv_lhs => rw [schedRun]
  rw [if_neg (by omega), if_neg (by omega)]

/-- C9 witness: interval 2, ceiling 10; trajectory [9,9,9,9] yields the
gap-free thresholds [2,4,6,8]; the observation 3 at threshold 2 runs a pass;
the observation 10 cuts the run short. -/
theorem C9_scheduler_amended_witness :
    (∃ m, schedRun 2 10 2 [9, 9, 9, 9] = thresholdSeq 2 2 m) ∧
    thresholdSeq 2 2 4 = (List.range 4).map (fun j => 2 + j * 2) ∧
    schedRun 2 10 2 (3 :: [9]) = 2 :: schedRun 2 10 (2 + 2) [9] ∧
    schedRun 2 10 2 ([3] ++ 10 :: [4]) = schedRun 2 10 2 ([3] ++ [10]) :=
  C9_scheduler_amended 2 10 4 [9, 9, 9, 9] [3] [4] [9] 2 10 3 2 (by decide)
    (by decide) (by decide)
